import Mathlib

set_option autoImplicit false

namespace Helper

/-- Primitive JavaScript values (the dedup design assumes primitive-valued
sequences, spec section 4.6).  NaN is kept separate from ordinary numbers since
strict equality treats it specially; symbols are identified by an id. -/
inductive JSPrim where
  | num (n : Int)
  | nan
  | str (s : String)
  | bool (b : Bool)
  | undef
  | null
  | sym (id : Nat)
deriving DecidableEq, Repr

/-- JavaScript strict equality `===` on primitives: NaN is not equal to
anything (including itself); otherwise values of the same kind compare
structurally and values of different kinds are unequal (no coercion). -/
def strictEq (a b : JSPrim) : Bool :=
  match a, b with
  | .nan, _ => false
  | _, .nan => false
  | a, b => decide (a = b)

/-- SameValueZero, the equality used by `Set` membership: like `===` except
that NaN equals NaN. -/
def sameValueZero (a b : JSPrim) : Bool :=
  match a, b with
  | .nan, .nan => true
  | a, b => strictEq a b

/-- A JavaScript array slot: `none` is a hole (unassigned index), `some v` an
assigned element. -/
abbrev JSArr := List (Option JSPrim)

/-- Reading every index of an array in order, as the array iterator does:
a hole reads as `undefined`. -/
def arrayValues (arr : JSArr) : List JSPrim :=
  arr.map (fun o => o.getD JSPrim.undef)

/-- Insertion into an insertion-ordered set with equality `eqb`, as
`new Set(arr)` performs element by element: `seen` holds the values inserted
so far (most recent first), and a value is added only if no already-seen value
compares equal to it. -/
def setFromAux (eqb : JSPrim → JSPrim → Bool) (seen : List JSPrim) :
    List JSPrim → List JSPrim
  | [] => []
  | v :: rest =>
    if seen.any (fun w => eqb w v) then setFromAux eqb seen rest
    else v :: setFromAux eqb (v :: seen) rest

/-- Inner loop of the in-place mode of `dedup` (README.md lines 367-374):
`while (n > m) { if (n in arr && arr[n] === v) { delete arr[n]; d++; } n--; }`.
The fuel `k` encodes the remaining iterations, visiting `n = m + k` downward;
it starts at `arr.length - 1 - m` so the first index visited is
`arr.length - 1` and the loop stops once `n = m`. -/
def delMatches (v : JSPrim) (m : Nat) : JSArr → Nat → Nat → JSArr × Nat
  | s, d, 0 => (s, d)
  | s, d, k + 1 =>
    let n := m + k + 1
    match s.getD n none with
    | some w =>
      if strictEq w v then delMatches v m (s.set n none) (d + 1) k
      else delMatches v m s d k
    | none => delMatches v m s d k

/-- Outer loop of the in-place mode of `dedup` (README.md lines 364-376):
`do { if (m in arr) { const v = arr[m]; ... inner loop ... } } while (++m < arr.length)`.
`delete` never changes `arr.length`, so the length is constant throughout and
the fuel `k` (initially `arr.length`) counts the iterations `m = 0 .. length-1`. -/
def scanOuter : JSArr → Nat → Nat → Nat → JSArr × Nat
  | s, d, _, 0 => (s, d)
  | s, d, m, k + 1 =>
    match s.getD m none with
    | some v =>
      let r := delMatches v m s d (s.length - 1 - m)
      scanOuter r.1 r.2 (m + 1) k
    | none => scanOuter s d (m + 1) k

/-- One step of the compaction pass (README.md lines 378-383):
`if (!(i in arr)) { arr[i] = arr[i + 1]; delete arr[i + 1]; }`.
Reading `arr[i + 1]` yields `undefined` when that index is a hole or past the
end; `List.set` past the end is a no-op just as `delete arr[length]` is. -/
def compactStep (s : JSArr) (i : Nat) : JSArr :=
  match s.getD i none with
  | some _ => s
  | none => ((s.set i (some ((s.getD (i + 1) none).getD JSPrim.undef))).set (i + 1) none)

/-- The compaction loop `for (let i = 0; i <= arr.length - 1; i++) ...`:
the fuel is `arr.length` (the length never changes during compaction). -/
def compactLoop : JSArr → Nat → Nat → JSArr
  | s, _, 0 => s
  | s, i, k + 1 => compactLoop (compactStep s i) (i + 1) k

/-- In-place branch of `dedup` (README.md lines 358-385): arrays shorter than
2 are untouched; otherwise the pairwise deletion scan runs, then the
compaction pass, then `arr.length = arr.length - d` truncates the trailing
`d` slots. -/
def dedupInPlace (arr : JSArr) : JSArr :=
  if arr.length < 2 then arr
  else
    let sd := scanOuter arr 0 0 arr.length
    let s2 := compactLoop sd.1 0 sd.1.length
    s2.take (s2.length - sd.2)

/-- The `dedup` function of README.md lines 355-386, returning the final state
of the argument array together with the returned value: copy mode (flag false)
returns `Array.from(new Set(arr))` and leaves the argument untouched; in-place
mode (flag true) mutates the argument and returns `undefined` (here `none`). -/
def dedup (arr : JSArr) (isDedupOrigin : Bool) : JSArr × Option (List JSPrim) :=
  if !isDedupOrigin then (arr, some (setFromAux sameValueZero [] (arrayValues arr)))
  else (dedupInPlace arr, none)

/-- Modelled from the spec's words for comparison with the code: the sequence
of the distinct values of `l` in order of first occurrence, built with a seen
accumulator and plain value equality. -/
def specFO (seen : List JSPrim) : List JSPrim → List JSPrim
  | [] => []
  | v :: rest =>
    if v ∈ seen then specFO seen rest
    else v :: specFO (v :: seen) rest

/-- Modelled from the spec's words: each distinct value of the input, exactly
once, in order of first occurrence. -/
def specFirstOccurrence (l : List JSPrim) : List JSPrim := specFO [] l

lemma svz_eq_decide (a b : JSPrim) : sameValueZero a b = decide (a = b) := by
  cases a <;> cases b <;> rfl

lemma strictEq_eq_decide (v : JSPrim) (hv : v ≠ JSPrim.nan) (w : JSPrim) :
    strictEq w v = decide (w = v) := by
  cases v <;> cases w <;> first | rfl | exact absurd rfl hv

lemma any_decide_mem (s : List JSPrim) (v : JSPrim) :
    (s.any fun w => decide (w = v)) = decide (v ∈ s) := by
  induction s with
  | nil => rfl
  | cons w s ih =>
    simp only [List.any_cons, ih, List.mem_cons]
    by_cases h : w = v
    · subst h; simp
    · simp [h, Ne.symm h]

lemma any_svz (seen : List JSPrim) (v : JSPrim) :
    (seen.any (fun w => sameValueZero w v)) = decide (v ∈ seen) := by
  have hf : (fun w => sameValueZero w v) = (fun w => decide (w = v)) :=
    funext (fun w => svz_eq_decide w v)
  rw [hf]; exact any_decide_mem seen v

lemma any_strict (seen : List JSPrim) (v : JSPrim) (hv : v ≠ JSPrim.nan) :
    (seen.any (fun w => strictEq w v)) = decide (v ∈ seen) := by
  have hf : (fun w => strictEq w v) = (fun w => decide (w = v)) :=
    funext (strictEq_eq_decide v hv)
  rw [hf]; exact any_decide_mem seen v

lemma setFromAux_svz_eq_specFO (l : List JSPrim) :
    ∀ seen, setFromAux sameValueZero seen l = specFO seen l := by
  induction l with
  | nil => intro seen; rfl
  | cons v rest ih =>
    intro seen
    simp only [setFromAux, specFO, any_svz]
    by_cases h : v ∈ seen
    · simp [h, ih]
    · simp [h, ih]

lemma setFromAux_strict_eq_specFO (l : List JSPrim) (hl : ∀ v ∈ l, v ≠ JSPrim.nan) :
    ∀ seen, setFromAux strictEq seen l = specFO seen l := by
  induction l with
  | nil => intro seen; rfl
  | cons v rest ih =>
    intro seen
    have hv : v ≠ JSPrim.nan := hl v (List.mem_cons_self v rest)
    have hrest : ∀ w ∈ rest, w ≠ JSPrim.nan := fun w hw => hl w (List.mem_cons_of_mem v hw)
    simp only [setFromAux, specFO, any_strict _ _ hv]
    by_cases h : v ∈ seen
    · simp [h, ih hrest]
    · simp [h, ih hrest]

lemma specFO_not_mem_seen (l : List JSPrim) :
    ∀ seen v, v ∈ specFO seen l → v ∉ seen := by
  induction l with
  | nil => intro seen v hv; simp [specFO] at hv
  | cons w rest ih =>
    intro seen v hv
    simp only [specFO] at hv
    by_cases h : w ∈ seen
    · rw [if_pos h] at hv; exact ih seen v hv
    · rw [if_neg h] at hv
      rcases List.mem_cons.mp hv with h1 | h1
      · subst h1; exact h
      · intro hs
        exact (ih (w :: seen) v h1) (List.mem_cons_of_mem w hs)

lemma specFO_nodup (l : List JSPrim) : ∀ seen, (specFO seen l).Nodup := by
  induction l with
  | nil => intro seen; simp [specFO]
  | cons w rest ih =>
    intro seen
    simp only [specFO]
    by_cases h : w ∈ seen
    · rw [if_pos h]; exact ih seen
    · rw [if_neg h]
      refine List.nodup_cons.mpr ⟨?_, ih (w :: seen)⟩
      intro hmem
      exact (specFO_not_mem_seen rest (w :: seen) w hmem) (List.mem_cons_self w seen)

lemma specFO_eq_self (l : List JSPrim) :
    ∀ seen, l.Nodup → (∀ v ∈ l, v ∉ seen) → specFO seen l = l := by
  induction l with
  | nil => intro seen _ _; rfl
  | cons v rest ih =>
    intro seen hnd hdis
    have hv : v ∉ seen := hdis v (List.mem_cons_self v rest)
    simp only [specFO, if_neg hv]
    refine congrArg (v :: ·) (ih (v :: seen) (List.nodup_cons.mp hnd).2 ?_)
    intro w hw
    rw [List.mem_cons]
    rintro (h1 | h1)
    · exact (List.nodup_cons.mp hnd).1 (h1 ▸ hw)
    · exact hdis w (List.mem_cons_of_mem v hw) h1

lemma arrayValues_map_some (l : List JSPrim) : arrayValues (l.map some) = l := by
  simp [arrayValues, List.map_map, Function.comp_def]

/-- Copy-mode dedup applied to its own output reproduces that output. -/
lemma dedup_copy_idem_aux (arr : JSArr) :
    (dedup (((dedup arr false).2.getD []).map some) false).2 = (dedup arr false).2 := by
  show some (setFromAux sameValueZero []
      (arrayValues ((setFromAux sameValueZero [] (arrayValues arr)).map some)))
    = some (setFromAux sameValueZero [] (arrayValues arr))
  rw [arrayValues_map_some, setFromAux_svz_eq_specFO, setFromAux_svz_eq_specFO]
  exact congrArg some (specFO_eq_self _ [] (specFO_nodup _ []) (by simp))

/-- C6: copy mode (flag false) leaves the input array untouched and returns
the sequence of the distinct values read from the input (holes read as
undefined), each exactly once, in order of first occurrence. -/
theorem dedup_copy_first_occurrence (arr : JSArr) :
    dedup arr false = (arr, some (specFirstOccurrence (arrayValues arr))) :=
  congrArg (fun l => (arr, some l)) (setFromAux_svz_eq_specFO (arrayValues arr) [])

/-- C2 counterexample: strict equality does not relate NaN to itself, yet copy
mode removes the second NaN, while in-place mode keeps both NaNs: removal is
not governed by strict equality in copy mode, and the two modes treat the pair
(NaN, NaN) differently. -/
theorem dedup_nan_mode_mismatch :
    strictEq JSPrim.nan JSPrim.nan = false
    ∧ (dedup [some JSPrim.nan, some JSPrim.nan] false).2 = some [JSPrim.nan]
    ∧ (dedup [some JSPrim.nan, some JSPrim.nan] true).1
        = [some JSPrim.nan, some JSPrim.nan] := by
  refine ⟨rfl, rfl, rfl⟩

/-- C2 amended: copy mode removes by SameValueZero equality (which also
collapses NaN duplicates); on sequences whose read values contain no NaN this
criterion coincides with strict equality, so there copy mode returns exactly
the strict-equality first-occurrence sequence and leaves the input untouched. -/
theorem dedup_copy_strict_without_nan (arr : JSArr)
    (h : ∀ v ∈ arrayValues arr, v ≠ JSPrim.nan) :
    dedup arr false = (arr, some (setFromAux strictEq [] (arrayValues arr))) := by
  show (arr, some (setFromAux sameValueZero [] (arrayValues arr)))
    = (arr, some (setFromAux strictEq [] (arrayValues arr)))
  rw [setFromAux_strict_eq_specFO _ h, setFromAux_svz_eq_specFO]

theorem dedup_copy_strict_without_nan_witness :
    (∀ v ∈ arrayValues [some (JSPrim.num 1), some (JSPrim.num 2), some (JSPrim.num 1)],
        v ≠ JSPrim.nan)
    ∧ dedup [some (JSPrim.num 1), some (JSPrim.num 2), some (JSPrim.num 1)] false
        = ([some (JSPrim.num 1), some (JSPrim.num 2), some (JSPrim.num 1)],
           some (setFromAux strictEq []
             (arrayValues [some (JSPrim.num 1), some (JSPrim.num 2), some (JSPrim.num 1)]))) :=
  ⟨by decide, dedup_copy_strict_without_nan _ (by decide)⟩

/-- C1: on the input [1, 1, 1, 2] the in-place mode does not deduplicate the
array as documented: the run of duplicates leaves two adjacent holes, the
compaction pass shifts by only one slot (turning the second hole into an
assigned undefined), and the final truncation then cuts the value 2, leaving
[1, undefined] instead of the documented distinct-value sequence [1, 2]. -/
theorem dedup_inplace_loses_values :
    dedup [some (JSPrim.num 1), some (JSPrim.num 1), some (JSPrim.num 1),
        some (JSPrim.num 2)] true
      = ([some (JSPrim.num 1), some JSPrim.undef], none)
    ∧ specFirstOccurrence
        (([some (JSPrim.num 1), some (JSPrim.num 1), some (JSPrim.num 1),
          some (JSPrim.num 2)] : JSArr).filterMap id)
      = [JSPrim.num 1, JSPrim.num 2] := by
  refine ⟨rfl, rfl⟩

/-- C10 counterexample: on the sparse input [1, hole, 2] (assigned values free
of undefined) the in-place mode also produces an undefined entry — the hole
surviving the scan is converted by the compaction into a trailing assigned
undefined that the truncation does not remove — contradicting the claim that
only copy mode yields an undefined entry. -/
theorem dedup_inplace_hole_keeps_undef :
    (dedup [some (JSPrim.num 1), none, some (JSPrim.num 2)] true).1
      = [some (JSPrim.num 1), some (JSPrim.num 2), some JSPrim.undef]
    ∧ JSPrim.undef ∈
        ((dedup [some (JSPrim.num 1), none, some (JSPrim.num 2)] true).1.filterMap id) := by
  refine ⟨rfl, by decide⟩

/-- C10 amended: the modes do treat holes differently — copy mode reads the
hole as undefined and places it at the hole's first-occurrence rank, while the
in-place scan skips it — but in-place mode also ends with an undefined entry,
at the tail, because compaction turns the leftover hole into an assigned
undefined and the deletion counter never counted it: on [1, hole, 2] copy mode
returns [1, undefined, 2] and in-place mode mutates the array to
[1, 2, undefined]. -/
theorem dedup_hole_mode_contrast :
    dedup [some (JSPrim.num 1), none, some (JSPrim.num 2)] false
      = ([some (JSPrim.num 1), none, some (JSPrim.num 2)],
         some [JSPrim.num 1, JSPrim.undef, JSPrim.num 2])
    ∧ dedup [some (JSPrim.num 1), none, some (JSPrim.num 2)] true
      = ([some (JSPrim.num 1), some (JSPrim.num 2), some JSPrim.undef], none) := by
  refine ⟨rfl, rfl⟩

/-- C3 counterexample: the in-place mode is not idempotent — on the input
[1,1,1,2,2,2,3,3,3,4] a first in-place pass leaves [1, undefined, 2, undefined]
(containing a duplicate undefined produced from adjacent holes), and a second
pass removes that duplicate, shrinking the array to [1, undefined, 2]. -/
theorem dedup_inplace_not_idempotent :
    (dedup (dedup [some (JSPrim.num 1), some (JSPrim.num 1), some (JSPrim.num 1),
        some (JSPrim.num 2), some (JSPrim.num 2), some (JSPrim.num 2),
        some (JSPrim.num 3), some (JSPrim.num 3), some (JSPrim.num 3),
        some (JSPrim.num 4)] true).1 true).1
    ≠ (dedup [some (JSPrim.num 1), some (JSPrim.num 1), some (JSPrim.num 1),
        some (JSPrim.num 2), some (JSPrim.num 2), some (JSPrim.num 2),
        some (JSPrim.num 3), some (JSPrim.num 3), some (JSPrim.num 3),
        some (JSPrim.num 4)] true).1 := by
  decide

/-- Property keys of a JavaScript object: ordinary string keys or symbols
(identified by an id). -/
inductive JSKey where
  | str (s : String)
  | sym (id : Nat)
deriving DecidableEq, Repr

/-- JavaScript values as stored in object fields.  Functions are opaque and
carry only an identity; they are applied through an explicit environment.
Plain objects carry their own-property list: key, enumerable flag, value. -/
inductive JSVal where
  | num (n : Int)
  | nan
  | str (s : String)
  | bool (b : Bool)
  | undef
  | null
  | sym (id : Nat)
  | func (id : Nat)
  | obj (props : List (JSKey × Bool × JSVal))
  | arr (elems : List JSVal)

/-- An own property of an object: key, enumerable flag, value. -/
abbrev JSProp := JSKey × Bool × JSVal

/-- An object is its insertion-ordered own-property list. -/
abbrev JSObj := List JSProp

/-- Interpretation of function identities: the environment maps a function id
to the (total) function it denotes. -/
abbrev Env := Nat → JSVal → JSVal

/-- Lookup of the own property named `k` (objects have unique keys, so the
first match is the property). -/
def findProp (m : JSObj) (k : JSKey) : Option JSProp :=
  m.find? (fun p => decide (p.1 = k))

/-- Object.prototype.hasOwnProperty. -/
def hasOwn (m : JSObj) (k : JSKey) : Bool :=
  (findProp m k).isSome

/-- Property read `obj[k]`: the stored value, or undefined when the key is
absent. -/
def getVal (m : JSObj) (k : JSKey) : JSVal :=
  match findProp m k with
  | some p => p.2.2
  | none => JSVal.undef

/-- The enumerable attribute of the descriptor of `k`, false when absent. -/
def isEnum (m : JSObj) (k : JSKey) : Bool :=
  match findProp m k with
  | some p => p.2.1
  | none => false

/-- Property write `obj[k] = v`: an existing property keeps its position and
enumerable flag; a new property is appended as enumerable. -/
def setProp : JSObj → JSKey → JSVal → JSObj
  | [], k, v => [(k, true, v)]
  | p :: rest, k, v => if p.1 = k then (k, p.2.1, v) :: rest else p :: setProp rest k v

/-- Property deletion `delete obj[k]`. -/
def delKey (m : JSObj) (k : JSKey) : JSObj :=
  m.filter (fun p => !decide (p.1 = k))

/-- Whether a key is an ordinary string key. -/
def isStrKey : JSKey → Bool
  | .str _ => true
  | .sym _ => false

/-- ownKeys of src/index.js lines 17-19:
`Object.getOwnPropertyNames(obj).concat(Object.getOwnPropertySymbols(obj))` —
all own string keys in insertion order, then all own symbol keys. -/
def ownKeys (m : JSObj) : List JSKey :=
  (m.filter (fun p => isStrKey p.1)).map (fun p => p.1)
    ++ (m.filter (fun p => !isStrKey p.1)).map (fun p => p.1)

/-- isJSON of src/index.js lines 5-7:
`Object.prototype.toString.call(obj) === '[object Object]'` holds exactly for
plain objects — not for arrays, functions, or any primitive. -/
def isJSON : JSVal → Bool
  | .obj _ => true
  | _ => false

/-- The own-property list of a value that is a plain object (empty for
anything else; only consulted after an isJSON check). -/
def valProps : JSVal → JSObj
  | .obj ps => ps
  | _ => []

/-- Whether a value is the undefined sentinel. -/
def isUndef : JSVal → Bool
  | .undef => true
  | _ => false

/-- Shared shape of deundefined and deempty (src/index.js lines 163-170 and
192-199): iterate over a snapshot of ownKeys and delete every key whose
current value satisfies `cond`. -/
def prune (cond : JSVal → Bool) (m : JSObj) : JSObj :=
  (ownKeys m).foldl (fun acc k => if cond (getVal acc k) then delKey acc k else acc) m

/-- deundefined of src/index.js lines 163-170: delete every own key whose
value is undefined. -/
def deundefined (m : JSObj) : JSObj :=
  prune isUndef m

/-- deempty of src/index.js lines 192-199: delete every own key whose value is
a plain object (isJSON) with zero own keys. -/
def deempty (m : JSObj) : JSObj :=
  prune (fun v => isJSON v && decide ((ownKeys (valProps v)).length = 0)) m

/-- JavaScript loose comparison with null (`x == null` / `x != null`): true
exactly for null and undefined. -/
def looseNull : JSVal → Bool
  | .null => true
  | .undef => true
  | _ => false

/-- Array.isArray. -/
def isArrVal : JSVal → Bool
  | .arr _ => true
  | _ => false

/-- JavaScript string conversion, used when a non-symbol value becomes a
property key: numbers, NaN, booleans, null and undefined print as in
JavaScript; an array joins its elements with commas, reading null and
undefined elements as empty; the source text of functions and the description
of symbols are abstracted through their ids. -/
def jsToString : JSVal → String
  | .num n => toString n
  | .nan => "NaN"
  | .str s => s
  | .bool b => if b then "true" else "false"
  | .undef => "undefined"
  | .null => "null"
  | .sym i => "Symbol(" ++ toString i ++ ")"
  | .func i => "function f" ++ toString i ++ "() {}"
  | .obj _ => "[object Object]"
  | .arr l =>
    String.intercalate ","
      (l.attach.map (fun x => if looseNull x.1 then "" else jsToString x.1))
decreasing_by
  simp_wf
  have h1 := List.sizeOf_lt_of_mem x.2
  omega

/-- ToPropertyKey: a symbol is used as the key directly; any other value is
converted to a string key. -/
def toPropKey : JSVal → JSKey
  | .sym i => .sym i
  | v => .str (jsToString v)

/-- JavaScript truthiness: false, 0, NaN, the empty string, undefined and null
are falsy; every other value (any nonzero number, nonempty string, symbol,
function, object or array) is truthy. -/
def truthy : JSVal → Bool
  | .bool b => b
  | .num n => decide (n ≠ 0)
  | .nan => false
  | .str s => decide (s ≠ "")
  | .undef => false
  | .null => false
  | _ => true

lemma findProp_cons (p : JSProp) (rest : JSObj) (k : JSKey) :
    findProp (p :: rest) k = if p.1 = k then some p else findProp rest k := by
  by_cases h : p.1 = k
  · simp [findProp, List.find?_cons_of_pos, h]
  · simp [findProp, List.find?_cons_of_neg, h]

lemma getVal_filter_keyPred (P : JSKey → Bool) (m : JSObj) (k : JSKey) (h : P k = true) :
    getVal (m.filter (fun p => P p.1)) k = getVal m k := by
  induction m with
  | nil => rfl
  | cons p rest ih =>
    by_cases hp : P p.1 = true
    · have hstep : (p :: rest).filter (fun q => P q.1) = p :: rest.filter (fun q => P q.1) := by
        simp [List.filter_cons, hp]
      rw [hstep]
      unfold getVal
      rw [findProp_cons, findProp_cons]
      by_cases hk : p.1 = k
      · rw [if_pos hk, if_pos hk]
      · rw [if_neg hk, if_neg hk]
        exact ih
    · have hstep : (p :: rest).filter (fun q => P q.1) = rest.filter (fun q => P q.1) := by
        simp [List.filter_cons, hp]
      rw [hstep]
      have hk : p.1 ≠ k := fun he => hp (by rw [he]; exact h)
      conv_rhs => unfold getVal
      rw [findProp_cons, if_neg hk]
      exact ih

lemma getVal_delKey_ne (m : JSObj) (k q : JSKey) (h : q ≠ k) :
    getVal (delKey m k) q = getVal m q :=
  getVal_filter_keyPred (fun x => !decide (x = k)) m q (by simp [h])

lemma delLoop_eq_filter (cond : JSVal → Bool) (ks : List JSKey) :
    ∀ (m : JSObj),
      ks.foldl (fun acc k => if cond (getVal acc k) then delKey acc k else acc) m
      = m.filter (fun p => !(decide (p.1 ∈ ks) && cond (getVal m p.1))) := by
  induction ks with
  | nil => intro m; simp
  | cons k ks ih =>
    intro m
    rw [List.foldl_cons]
    by_cases hc : cond (getVal m k) = true
    · rw [if_pos hc, ih, delKey, List.filter_filter]
      refine List.filter_congr ?_
      intro p hp
      by_cases hk : p.1 = k
      · simp [hk, hc]
      · have hg : getVal (delKey m k) p.1 = getVal m p.1 := getVal_delKey_ne m k p.1 hk
        rw [delKey] at hg
        simp only [hg, List.mem_cons, hk, false_or]
        by_cases hmem : p.1 ∈ ks <;> simp [hmem, hk]
    · rw [if_neg hc, ih]
      refine List.filter_congr ?_
      intro p hp
      by_cases hk : p.1 = k
      · simp [hk, hc, List.mem_cons]
      · simp [List.mem_cons, hk]

lemma ownKeys_complete (m : JSObj) (p : JSProp) (hp : p ∈ m) : p.1 ∈ ownKeys m := by
  by_cases h : isStrKey p.1 = true
  · exact List.mem_append_left _
      (List.mem_map_of_mem (fun q => q.1) (List.mem_filter.mpr ⟨hp, h⟩))
  · refine List.mem_append_right _
      (List.mem_map_of_mem (fun q => q.1) (List.mem_filter.mpr ⟨hp, ?_⟩))
    simp [h]

lemma prune_eq_filter (cond : JSVal → Bool) (m : JSObj) :
    prune cond m = m.filter (fun p => !cond (getVal m p.1)) := by
  rw [prune, delLoop_eq_filter]
  refine List.filter_congr ?_
  intro p hp
  simp [ownKeys_complete m p hp]

lemma prune_idem (cond : JSVal → Bool) (m : JSObj) :
    prune cond (prune cond m) = prune cond m := by
  rw [prune_eq_filter cond m, prune_eq_filter]
  refine List.filter_eq_self.mpr ?_
  intro p hp
  have hmem := List.mem_filter.mp hp
  have hval : getVal (m.filter (fun q => !cond (getVal m q.1))) p.1 = getVal m p.1 :=
    getVal_filter_keyPred (fun q => !cond (getVal m q)) m p.1 hmem.2
  rw [hval]
  exact hmem.2

lemma getVal_eq_of_nodup (m : JSObj) (hnd : (m.map (fun p => p.1)).Nodup) :
    ∀ p ∈ m, getVal m p.1 = p.2.2 := by
  induction m with
  | nil => intro p hp; exact absurd hp (List.not_mem_nil p)
  | cons q rest ih =>
    intro p hp
    rcases List.mem_cons.mp hp with h1 | h1
    · subst h1
      unfold getVal
      rw [findProp_cons, if_pos rfl]
    · have hq : q.1 ≠ p.1 := by
        intro he
        have : p.1 ∈ rest.map (fun p => p.1) := List.mem_map_of_mem _ h1
        rw [List.map_cons, List.nodup_cons] at hnd
        exact hnd.1 (he ▸ this)
      unfold getVal
      rw [findProp_cons, if_neg hq]
      have := ih (by rw [List.map_cons, List.nodup_cons] at hnd; exact hnd.2) p h1
      unfold getVal at this
      exact this

/-- C3 amended: deundefined, deempty and copy-mode dedup are idempotent — a
second application of deundefined or deempty to a mapping, or of copy-mode
dedup to the array returned by a first copy-mode dedup, changes nothing (the
in-place dedup mode, excluded here, is not idempotent). -/
theorem prune_and_copy_dedup_idempotent :
    (∀ m : JSObj, deundefined (deundefined m) = deundefined m)
    ∧ (∀ m : JSObj, deempty (deempty m) = deempty m)
    ∧ (∀ arr : JSArr,
        (dedup (((dedup arr false).2.getD []).map some) false).2 = (dedup arr false).2) :=
  ⟨fun m => prune_idem _ m, fun m => prune_idem _ m, dedup_copy_idem_aux⟩

/-- C9: on a mapping with unique keys, deempty removes exactly the own
properties whose value is a plain object (per the isJSON runtime-tag check)
with zero own keys, leaving every other property untouched; and arrays never
pass the isJSON check, so they never qualify. -/
theorem deempty_removes_exactly_empty_plain_objects :
    (∀ m : JSObj, (m.map (fun p => p.1)).Nodup →
      deempty m = m.filter
        (fun p => !(isJSON p.2.2 && decide ((ownKeys (valProps p.2.2)).length = 0))))
    ∧ (∀ l : List JSVal, isJSON (JSVal.arr l) = false) := by
  constructor
  · intro m hnd
    rw [deempty, prune_eq_filter]
    refine List.filter_congr ?_
    intro p hp
    rw [getVal_eq_of_nodup m hnd p hp]
  · intro l; rfl

/-- Destructuring `const [srcKey, tarKey, converter] = Array.isArray(key) ? key : [key, key]`
(src/index.js line 62): an array instruction reads its first three slots
(missing slots give undefined); a bare key stands for (key, key, undefined). -/
def destructure : JSVal → JSVal × JSVal × JSVal
  | .arr l => (l.getD 0 .undef, l.getD 1 .undef, l.getD 2 .undef)
  | k => (k, k, .undef)

/-- One instruction of assignWithin (src/index.js lines 62-66): it applies
only when the source key has an own descriptor that is enumerable and the
resolved target key is not null/undefined; it then yields the target key and
the value to assign — the converter applied to the source value when the
converter slot holds a function, the raw source value otherwise. -/
def resolveInstr (env : Env) (s : JSObj) (instr : JSVal) : Option (JSKey × JSVal) :=
  let d := destructure instr
  let sk := toPropKey d.1
  match findProp s sk with
  | some p =>
    if p.2.1 && !looseNull d.2.1 then
      some (toPropKey d.2.1,
        match d.2.2 with
        | .func id => env id (getVal s sk)
        | _ => getVal s sk)
    else none
  | none => none

/-- The body of assignWithin's instruction loop: perform the resolved
assignment, or leave the target alone when the instruction is skipped. -/
def withinStep (env : Env) (s : JSObj) (t : JSObj) (instr : JSVal) : JSObj :=
  match resolveInstr env s instr with
  | some r => setProp t r.1 r.2
  | none => t

/-- assignWithin of src/index.js lines 56-70.  Target and source are a mapping
or null/undefined (`none`); the instruction argument is an arbitrary value and
is only iterated when it is an array.  A null/undefined target raises the
TypeError of line 58; otherwise the (possibly mutated) target is returned. -/
def assignWithin (tar src : Option JSObj) (range : JSVal) (env : Env) :
    Except String JSObj :=
  match tar with
  | none => .error "Cannot convert undefined or null to object"
  | some t =>
    .ok (match src, range with
         | some s, .arr keys => keys.foldl (withinStep env s) t
         | _, _ => t)

/-- Strict equality between an element of the exclusion array and a property
key, as `range.indexOf(key)` tests it: only an equal string or the same symbol
matches, with no coercion. -/
def keyEqVal (v : JSVal) (k : JSKey) : Bool :=
  match v, k with
  | .str s, .str s2 => decide (s = s2)
  | .sym i, .sym j => decide (i = j)
  | _, _ => false

/-- The loop of assignWithout (src/index.js lines 96-100): for each own key of
the source, copy its value to the target when the key's descriptor is
enumerable and the key does not occur in the exclusion array. -/
def withoutFold (t s : JSObj) (ex : List JSVal) : JSObj :=
  (ownKeys s).foldl
    (fun acc k =>
      if isEnum s k && !(ex.any (fun v => keyEqVal v k)) then setProp acc k (getVal s k)
      else acc) t

/-- assignWithout of src/index.js lines 91-103: same target check and
source/array guards as assignWithin, then the exclusion-filtered copy of all
own keys of the source. -/
def assignWithout (tar src : Option JSObj) (range : JSVal) : Except String JSObj :=
  match tar with
  | none => .error "Cannot convert undefined or null to object"
  | some t =>
    .ok (match src, range with
         | some s, .arr ex => withoutFold t s ex
         | _, _ => t)

/-- One item of convert's loop (src/index.js lines 130-140): a non-array item
is skipped; an array item applies when its first slot is truthy and names an
own key of the mapping, assigning the converter's result when the second slot
is a function and the second slot itself otherwise. -/
def convertStep (env : Env) (m : JSObj) (item : JSVal) : JSObj :=
  match item with
  | .arr l =>
    let k0 := l.getD 0 .undef
    if truthy k0 && hasOwn m (toPropKey k0) then
      match l.getD 1 .undef with
      | .func id => setProp m (toPropKey k0) (env id (getVal m (toPropKey k0)))
      | c => setProp m (toPropKey k0) c
    else m
  | _ => m

/-- Whether `for (const item of x)` can iterate x: among the modelled values
exactly arrays and strings are iterable. -/
def isIterable : JSVal → Bool
  | .arr _ => true
  | .str _ => true
  | _ => false

/-- convert of src/index.js lines 129-143.  The items argument is iterated
with for-of, which throws a TypeError when the value is not iterable; an array
is processed item by item, and a string yields one-character strings, which
are never arrays, so every item of a string is skipped. -/
def convert (m : JSObj) (items : JSVal) (env : Env) : Except String JSObj :=
  match items with
  | .arr l => .ok (l.foldl (convertStep env) m)
  | .str _ => .ok m
  | _ => .error "items is not iterable"

theorem deempty_removes_exactly_empty_plain_objects_witness :
    (([(JSKey.str "a", true, JSVal.num 1), (JSKey.str "b", true, JSVal.num 2),
       (JSKey.str "c", true, JSVal.obj [])] : JSObj).map (fun p => p.1)).Nodup
    ∧ deempty [(JSKey.str "a", true, JSVal.num 1), (JSKey.str "b", true, JSVal.num 2),
        (JSKey.str "c", true, JSVal.obj [])]
      = ([(JSKey.str "a", true, JSVal.num 1), (JSKey.str "b", true, JSVal.num 2),
          (JSKey.str "c", true, JSVal.obj [])] : JSObj).filter
          (fun p => !(isJSON p.2.2 && decide ((ownKeys (valProps p.2.2)).length = 0))) :=
  ⟨by decide, deempty_removes_exactly_empty_plain_objects.1 _ (by decide)⟩

/-- C4 counterexample: convert does raise an error — a non-iterable
instruction argument (here the number 0) makes the for-of loop throw instead
of being skipped silently. -/
theorem convert_raises_on_noniterable :
    convert [] (JSVal.num 0) (fun _ v => v) = .error "items is not iterable" := rfl

/-- C4 amended: convert returns normally exactly when the instruction
argument is iterable (an array or a string) — then malformed items and items
naming absent keys are skipped silently — and raises a TypeError on every
non-iterable instruction argument, for every mapping. -/
theorem convert_error_iff_noniterable (m : JSObj) (items : JSVal) (env : Env) :
    (convert m items env).isOk = isIterable items := by
  cases items <;> rfl

/-- C5: assignWithin and assignWithout raise their TypeError (the spec's
InvalidArgument) exactly when the target is null/undefined, and for a present
target a null/undefined source or a non-array instruction/exclusion argument
makes the call return the target unchanged instead of raising. -/
theorem assign_error_iff_null_target (env : Env) (tar src : Option JSObj) (range : JSVal) :
    ((assignWithin tar src range env).isOk = false ↔ tar = none)
    ∧ ((assignWithout tar src range).isOk = false ↔ tar = none)
    ∧ (∀ t, tar = some t → (src = none ∨ isArrVal range = false) →
        assignWithin tar src range env = .ok t ∧ assignWithout tar src range = .ok t) := by
  refine ⟨?_, ?_, ?_⟩
  · cases tar with
    | none => simp [assignWithin, Except.isOk, Except.toBool]
    | some t => simp [assignWithin, Except.isOk, Except.toBool]
  · cases tar with
    | none => simp [assignWithout, Except.isOk, Except.toBool]
    | some t => simp [assignWithout, Except.isOk, Except.toBool]
  · rintro t rfl h
    rcases h with h | h
    · subst h
      exact ⟨by cases range <;> rfl, by cases range <;> rfl⟩
    · constructor
      · cases range <;> cases src <;> first | rfl | simp [isArrVal] at h
      · cases range <;> cases src <;> first | rfl | simp [isArrVal] at h

theorem assign_error_iff_null_target_witness :
    assignWithin (some ([] : JSObj)) none (JSVal.num 0) (fun _ v => v) = .ok []
    ∧ assignWithout (some ([] : JSObj)) none (JSVal.num 0) = .ok [] :=
  (assign_error_iff_null_target (fun _ v => v) (some []) none (JSVal.num 0)).2.2
    [] rfl (Or.inl rfl)

lemma getVal_cons (p : JSProp) (rest : JSObj) (q : JSKey) :
    getVal (p :: rest) q = if p.1 = q then p.2.2 else getVal rest q := by
  unfold getVal
  rw [findProp_cons]
  by_cases h : p.1 = q
  · rw [if_pos h, if_pos h]
  · rw [if_neg h, if_neg h]

lemma getVal_setProp (t : JSObj) (k : JSKey) (v : JSVal) (q : JSKey) :
    getVal (setProp t k v) q = if q = k then v else getVal t q := by
  induction t with
  | nil =>
    show getVal [(k, true, v)] q = _
    rw [getVal_cons]
    by_cases h : q = k
    · rw [if_pos h.symm, if_pos h]
    · rw [if_neg (fun he => h he.symm), if_neg h]
  | cons p rest ih =>
    by_cases hp : p.1 = k
    · have hstep : setProp (p :: rest) k v = (k, p.2.1, v) :: rest := if_pos hp
      rw [hstep, getVal_cons, getVal_cons]
      by_cases hq : q = k
      · rw [if_pos hq.symm, if_pos hq]
      · rw [if_neg (fun he => hq he.symm), if_neg hq,
          if_neg (fun he => hq (hp.symm.trans he).symm)]
    · have hstep : setProp (p :: rest) k v = p :: setProp rest k v := if_neg hp
      rw [hstep, getVal_cons, getVal_cons, ih]
      by_cases hq : p.1 = q
      · have hqk : ¬q = k := fun he => hp (hq.trans he)
        rw [if_pos hq, if_neg hqk, if_pos hq]
      · rw [if_neg hq]
        by_cases hqk : q = k
        · rw [if_pos hqk, if_pos hqk]
        · rw [if_neg hqk, if_neg hqk, if_neg hq]

/-- The result of a single assignWithin instruction at a given target key:
the assigned value when the instruction resolves to that key, nothing
otherwise. -/
def appliesAt (env : Env) (s : JSObj) (instr : JSVal) (k : JSKey) : Option JSVal :=
  match resolveInstr env s instr with
  | some r => if r.1 = k then some r.2 else none
  | none => none

/-- The value assigned to target key k by the last instruction of the list
that resolves to k, if any. -/
def lastApplied (env : Env) (s : JSObj) (instrs : List JSVal) (k : JSKey) : Option JSVal :=
  instrs.reverse.findSome? (fun instr => appliesAt env s instr k)

lemma findSome?_append_or {α β : Type} (f : α → Option β) (l1 l2 : List α) :
    (l1 ++ l2).findSome? f = ((l1.findSome? f).orElse (fun _ => l2.findSome? f)) := by
  induction l1 with
  | nil => rfl
  | cons a l ih =>
    rw [List.cons_append, List.findSome?_cons, List.findSome?_cons]
    cases f a <;> simp [ih, Option.orElse]

lemma lastApplied_cons (env : Env) (s : JSObj) (i : JSVal) (rest : List JSVal) (k : JSKey) :
    lastApplied env s (i :: rest) k
      = ((lastApplied env s rest k).orElse (fun _ => appliesAt env s i k)) := by
  unfold lastApplied
  rw [List.reverse_cons, findSome?_append_or]
  cases h : appliesAt env s i k <;> simp [List.findSome?_cons, h]

lemma foldl_withinStep_getVal (env : Env) (s : JSObj) (instrs : List JSVal) :
    ∀ (t : JSObj) (k : JSKey),
      getVal (instrs.foldl (withinStep env s) t) k
        = (lastApplied env s instrs k).getD (getVal t k) := by
  induction instrs with
  | nil => intro t k; rfl
  | cons i rest ih =>
    intro t k
    rw [List.foldl_cons, ih, lastApplied_cons]
    cases hl : lastApplied env s rest k with
    | some v => simp [Option.orElse]
    | none =>
      rw [Option.getD_none]
      have horelse : ((none : Option JSVal).orElse (fun _ => appliesAt env s i k))
          = appliesAt env s i k := rfl
      rw [horelse]
      cases hr : resolveInstr env s i with
      | none =>
        have h1 : withinStep env s t i = t := by unfold withinStep; rw [hr]
        have h2 : appliesAt env s i k = none := by unfold appliesAt; rw [hr]
        rw [h1, h2, Option.getD_none]
      | some r =>
        have h1 : withinStep env s t i = setProp t r.1 r.2 := by unfold withinStep; rw [hr]
        have h2 : appliesAt env s i k = (if r.1 = k then some r.2 else none) := by
          unfold appliesAt; rw [hr]
        rw [h1, h2, getVal_setProp]
        by_cases hk : r.1 = k
        · rw [if_pos hk, if_pos hk.symm, Option.getD_some]
        · rw [if_neg hk, if_neg (fun he => hk he.symm), Option.getD_none]

/-- C7: over a present target and source, assignWithin folds the instruction
array in order, and the final value of any target key is determined by the
last instruction that resolves to it — an instruction resolves only when its
source key has an enumerable own descriptor and its resolved target key is
not null/undefined, and it assigns the converter applied to the source value
when a converter function is present and the raw source value otherwise;
a key no instruction resolves to keeps its previous target value, so skipped
instructions create no target field. -/
theorem assignWithin_last_write_wins (env : Env) (s t : JSObj) (instrs : List JSVal)
    (k : JSKey) :
    assignWithin (some t) (some s) (.arr instrs) env
      = .ok (instrs.foldl (withinStep env s) t)
    ∧ getVal (instrs.foldl (withinStep env s) t) k
      = (lastApplied env s instrs k).getD (getVal t k) :=
  ⟨rfl, foldl_withinStep_getVal env s instrs t k⟩

lemma foldl_guardedSet_getVal (f : JSKey → JSVal) (P : JSKey → Bool) (ks : List JSKey) :
    ∀ (t : JSObj) (k : JSKey),
      getVal (ks.foldl (fun acc q => if P q then setProp acc q (f q) else acc) t) k
        = if decide (k ∈ ks) && P k then f k else getVal t k := by
  induction ks with
  | nil => intro t k; simp
  | cons q ks ih =>
    intro t k
    rw [List.foldl_cons, ih]
    by_cases hk : k = q
    · subst hk
      by_cases hP : P k = true
      · by_cases hmem : k ∈ ks
        · simp [hP, hmem, getVal_setProp]
        · simp [hP, hmem, getVal_setProp]
      · simp [hP, List.mem_cons]
    · by_cases hP : P q = true
      · simp [hP, getVal_setProp, hk, List.mem_cons]
      · simp [hP, hk, List.mem_cons]

/-- C8: over a present target, source and exclusion array, assignWithout
returns the folded target, whose value at any key is the source value exactly
when the key is an own key of the source, its descriptor is enumerable, and no
element of the exclusion array strictly equals it; at every other key the
target keeps its previous value — in particular exclusion entries that are not
keys of the source have no effect. -/
theorem assignWithout_copies_enumerable_unexcluded (t s : JSObj) (ex : List JSVal)
    (k : JSKey) :
    assignWithout (some t) (some s) (.arr ex) = .ok (withoutFold t s ex)
    ∧ getVal (withoutFold t s ex) k
      = (if decide (k ∈ ownKeys s) && (isEnum s k && !(ex.any (fun v => keyEqVal v k)))
         then getVal s k else getVal t k) :=
  ⟨rfl,
    foldl_guardedSet_getVal (fun q => getVal s q)
      (fun q => isEnum s q && !(ex.any (fun v => keyEqVal v q))) (ownKeys s) t k⟩

end Helper
